import Mathlib

/-!
# BoundedBuffer: a bounded FIFO of variable-length binary records

Shallow embedding of `src/BoundedBuffer.h`.

* A `vector<char>` is a list of bytes; the `queue<vector<char>>` member `q` is a
  list of records with the head of the list at the front of the queue.
* `int` values are integers in the range `[-2^31, 2^31)` (`isInt`); `size_t`
  values are naturals below `2^64`.  The comparisons `q.size() < cap` and
  `d.size() <= bufcap` are between a `size_t` and an `int`, so the `int` operand
  is converted to `size_t` first (`toSizeT`, reduction modulo `2^64`).
* The region between `unique_lock<mutex> l(m)` and `l.unlock()` runs under the
  mutex, so it is one atomic step on the queue (`pushCS`, `popCS`).  A call whose
  wait predicate is false suspends; in the model such a call is `blocked` and
  leaves the queue unchanged.
* Every call also yields the list of synchronisation and data effects it
  performs, in program order (`Event`).
-/

namespace BB

/-! ## Machine integers -/

/-- Number of values of `size_t` (64-bit). -/
def SIZE_MOD : Nat := 18446744073709551616

/-- Number of values of `int` (32-bit). -/
def INT_MOD : Nat := 4294967296

/-- Largest `int`. -/
def INT_MAX : Int := 2147483647

/-- Smallest `int`. -/
def INT_MIN : Int := -2147483648

/-- Range of the C++ type `int`. -/
def isInt (x : Int) : Prop := INT_MIN ≤ x ∧ x ≤ INT_MAX

instance (x : Int) : Decidable (isInt x) := by
  unfold isInt; exact inferInstance

/-- Conversion `int -> size_t` applied by the usual arithmetic conversions when an
`int` is compared with a `size_t`: reduction modulo `2^64`. -/
def toSizeT (x : Int) : Nat := (x % (SIZE_MOD : Int)).toNat

/-- Conversion `size_t -> int` of `return d.size();`: the value modulo `2^32`,
read as a two's complement number. -/
def toInt (n : Nat) : Int :=
  if n % INT_MOD < 2147483648 then ((n % INT_MOD : Nat) : Int)
  else ((n % INT_MOD : Nat) : Int) - (INT_MOD : Int)

/-! ## Data model -/

/-- One `char`. -/
abbrev Byte := Fin 256

/-- One item of the buffer, a `vector<char>`. -/
abbrev Record := List Byte

/-- Data members `cap` and `q` of `class BoundedBuffer`. -/
structure BoundedBuffer where
  cap : Int
  q : List Record
  deriving DecidableEq, Repr

/-- Constructor `BoundedBuffer (int _cap)`: `cap = _cap`, the queue starts empty. -/
def BoundedBuffer.new (_cap : Int) : BoundedBuffer := { cap := _cap, q := [] }

/-- The two condition variables of the class. -/
inductive CondVar
  | data_available
  | slot_available
  deriving DecidableEq, Repr

/-- Effects a call performs, in program order. -/
inductive Event
  | lock
  | wait (cv : CondVar)
  | q_push
  | q_pop
  | unlock
  | assert_check (ok : Bool)
  | memcpy (n : Nat)
  | notify_one (cv : CondVar)
  | notify_all (cv : CondVar)
  deriving DecidableEq, Repr

/-- The signalling effects of a trace. -/
def Event.isSignal : Event → Bool
  | .notify_one _ => true
  | .notify_all _ => true
  | _ => false

/-- The signals of a trace, in order. -/
def signals (tr : List Event) : List Event := tr.filter Event.isSignal

/-! ## push -/

/-- Wait predicate of `push`: `[this]{return q.size() < cap;}`. -/
def pushPred (b : BoundedBuffer) : Prop := b.q.length < toSizeT b.cap

instance (b : BoundedBuffer) : Decidable (pushPred b) := by
  unfold pushPred; exact inferInstance

/-- Critical section of `push`: once the predicate holds, `q.push(d)`.
`none` when the predicate is false (the caller stays suspended). -/
def pushCS (b : BoundedBuffer) (d : Record) : Option BoundedBuffer :=
  if pushPred b then some { b with q := b.q ++ [d] } else none

/-- Result of a `push` call. -/
inductive PushOutcome
  | blocked (b : BoundedBuffer) (tr : List Event)
  | returned (b : BoundedBuffer) (tr : List Event)
  deriving DecidableEq, Repr

/-- `void push (char* data, int len)`; the argument is the byte range
`[data, data+len)`. -/
def push (b : BoundedBuffer) (data : List Byte) : PushOutcome :=
  -- vector<char> d(data, data+len);
  let d : Record := data
  -- unique_lock<mutex> l(m); slot_available.wait(l, pred);
  let tr := [Event.lock, Event.wait CondVar.slot_available]
  match pushCS b d with
  | none => PushOutcome.blocked b tr
  | some b1 =>
    -- q.push(d); l.unlock();
    let tr := tr ++ [Event.q_push, Event.unlock]
    -- data_available.notify_one();
    let tr := tr ++ [Event.notify_one CondVar.data_available]
    PushOutcome.returned b1 tr

/-! ## pop -/

/-- Wait predicate of `pop`: `[this]{return q.size() > 0;}`. -/
def popPred (b : BoundedBuffer) : Prop := b.q.length > 0

instance (b : BoundedBuffer) : Decidable (popPred b) := by
  unfold popPred; exact inferInstance

/-- Critical section of `pop`: once the predicate holds, `d = q.front(); q.pop()`.
`none` when the predicate is false (the caller stays suspended). -/
def popCS (b : BoundedBuffer) : Option (Record × BoundedBuffer) :=
  if popPred b then
    match b.q with
    | [] => none
    | d :: rest => some (d, { b with q := rest })
  else none

/-- `memcpy(dst, src, n)`: the first `n` bytes of `dst` are replaced by the first
`n` bytes of `src`. -/
def memcpy (dst src : List Byte) (n : Nat) : List Byte := src.take n ++ dst.drop n

/-- Result of a `pop` call: suspended, stopped by the failed `assert`, or returned
with the return value and the caller's buffer. -/
inductive PopOutcome
  | blocked (b : BoundedBuffer) (tr : List Event)
  | aborted (b : BoundedBuffer) (tr : List Event)
  | returned (ret : Int) (buf : List Byte) (b : BoundedBuffer) (tr : List Event)
  deriving DecidableEq, Repr

/-- `int pop (char* buf, int bufcap)`. -/
def pop (b : BoundedBuffer) (buf : List Byte) (bufcap : Int) : PopOutcome :=
  -- unique_lock<mutex> l(m); data_available.wait(l, pred);
  let tr := [Event.lock, Event.wait CondVar.data_available]
  match popCS b with
  | none => PopOutcome.blocked b tr
  | some (d, b1) =>
    -- vector<char> d = q.front(); q.pop(); l.unlock();
    let tr := tr ++ [Event.q_pop, Event.unlock]
    -- assert(d.size() <= bufcap);
    if d.length ≤ toSizeT bufcap then
      let tr := tr ++ [Event.assert_check true]
      -- memcpy(buf, d.data(), d.size());
      let buf1 := memcpy buf d d.length
      let tr := tr ++ [Event.memcpy d.length]
      -- slot_available.notify_one();
      let tr := tr ++ [Event.notify_one CondVar.slot_available]
      -- return d.size();
      PopOutcome.returned (toInt d.length) buf1 b1 tr
    else
      PopOutcome.aborted b1 (tr ++ [Event.assert_check false])

/-! ## Executions -/

/-- One atomic step on the queue: the critical section of a `push` of `d`, or the
critical section of a `pop`. -/
inductive Step
  | push (d : Record)
  | pop
  deriving DecidableEq, Repr

/-- A step is taken only when its wait predicate holds. -/
def stepCS (b : BoundedBuffer) : Step → Option BoundedBuffer
  | Step.push d => pushCS b d
  | Step.pop => (popCS b).map Prod.snd

/-- A finite sequence of steps; `none` when some step is not admitted. -/
def runCS (b : BoundedBuffer) : List Step → Option BoundedBuffer
  | [] => some b
  | s :: ss => (stepCS b s).bind (fun b1 => runCS b1 ss)

/-- A whole call, with its arguments. -/
inductive Call
  | push (data : List Byte)
  | pop (buf : List Byte) (bufcap : Int)
  deriving DecidableEq, Repr

/-- The arguments fit their C++ types: `len` and `bufcap` are `int`s. -/
def Call.wellTyped : Call → Prop
  | Call.push data => (data.length : Int) ≤ INT_MAX
  | Call.pop _ bufcap => isInt bufcap

/-- A completed call: the queue after it and the records it handed to its caller
(for `pop`, the first `ret` bytes of the caller's buffer).  `none` when the call
does not return. -/
def call (b : BoundedBuffer) : Call → Option (BoundedBuffer × List Record)
  | Call.push data =>
    match push b data with
    | PushOutcome.returned b1 _ => some (b1, [])
    | PushOutcome.blocked _ _ => none
  | Call.pop buf bufcap =>
    match pop b buf bufcap with
    | PopOutcome.returned ret buf1 b1 _ => some (b1, [buf1.take ret.toNat])
    | PopOutcome.aborted _ _ => none
    | PopOutcome.blocked _ _ => none

/-- A finite sequence of completed calls: the final queue and the records
returned by the pops, in pop order. -/
def runCalls (b : BoundedBuffer) : List Call → Option (BoundedBuffer × List Record)
  | [] => some (b, [])
  | c :: cs =>
    match call b c with
    | none => none
    | some (b1, out) =>
      match runCalls b1 cs with
      | none => none
      | some (b2, outs) => some (b2, out ++ outs)

/-- The records passed to the `push` calls of a sequence, in call order. -/
def pushedOf : List Call → List Record
  | [] => []
  | Call.push data :: cs => data :: pushedOf cs
  | Call.pop _ _ :: cs => pushedOf cs

/-! ## Traces, state classes and scenario data -/

/-- Trace of a `push` call that returns. -/
def pushTrace : List Event :=
  [Event.lock, Event.wait CondVar.slot_available, Event.q_push, Event.unlock,
   Event.notify_one CondVar.data_available]

/-- Trace of a `pop` call that returns after copying `n` bytes. -/
def popTrace (n : Nat) : List Event :=
  [Event.lock, Event.wait CondVar.data_available, Event.q_pop, Event.unlock,
   Event.assert_check true, Event.memcpy n, Event.notify_one CondVar.slot_available]

/-- Trace of a `pop` call stopped by the failed assertion. -/
def popAbortTrace : List Event :=
  [Event.lock, Event.wait CondVar.data_available, Event.q_pop, Event.unlock,
   Event.assert_check false]

/-- Every record in the queue has a length that fits an `int`. -/
def recordsFit (q : List Record) : Prop := ∀ r ∈ q, (r.length : Int) ≤ INT_MAX

/-- Empty state of the state model: `len == 0`. -/
def stEmpty (b : BoundedBuffer) : Prop := b.q.length = 0

/-- Partial state of the state model: `0 < len < capacity`. -/
def stPartial (b : BoundedBuffer) : Prop := 0 < b.q.length ∧ (b.q.length : Int) < b.cap

/-- Full state of the state model: `len == capacity`. -/
def stFull (b : BoundedBuffer) : Prop := (b.q.length : Int) = b.cap

instance (b : BoundedBuffer) : Decidable (stEmpty b) := by
  unfold stEmpty; exact inferInstance

instance (b : BoundedBuffer) : Decidable (stPartial b) := by
  unfold stPartial; exact inferInstance

instance (b : BoundedBuffer) : Decidable (stFull b) := by
  unfold stFull; exact inferInstance

/-- The three bytes "AAA". -/
def AAA : List Byte := [65, 65, 65]

/-- The five bytes "BBBBB". -/
def BBBBB : List Byte := [66, 66, 66, 66, 66]

/-! ## Conversions -/

theorem toSizeT_of_nonneg (x : Int) (h0 : 0 ≤ x) (h : x ≤ INT_MAX) :
    toSizeT x = x.toNat := by
  unfold toSizeT
  have hlt : x < (SIZE_MOD : Int) := by
    unfold INT_MAX at h; unfold SIZE_MOD; omega
  rw [Int.emod_eq_of_lt h0 hlt]

theorem toSizeT_of_neg (x : Int) (hmin : INT_MIN ≤ x) (hneg : x < 0) :
    (toSizeT x : Int) = (SIZE_MOD : Int) + x := by
  unfold toSizeT
  unfold INT_MIN at hmin
  unfold SIZE_MOD
  omega

theorem toInt_of_le (n : Nat) (h : (n : Int) ≤ INT_MAX) : toInt n = (n : Int) := by
  unfold toInt INT_MOD
  unfold INT_MAX at h
  have h1 : n % 4294967296 = n := Nat.mod_eq_of_lt (by omega)
  rw [h1]
  have h2 : n < 2147483648 := by omega
  simp [h2]

theorem memcpy_take (dst src : List Byte) :
    (memcpy dst src src.length).take src.length = src := by
  simp [memcpy]

/-! ## Basic facts about the critical sections -/

theorem pushCS_eq_some (b b1 : BoundedBuffer) (d : Record) (h : pushCS b d = some b1) :
    pushPred b ∧ b1 = { b with q := b.q ++ [d] } := by
  unfold pushCS at h
  by_cases hp : pushPred b
  · simp [hp] at h; exact ⟨hp, h.symm⟩
  · simp [hp] at h

theorem popCS_eq_some (b b1 : BoundedBuffer) (d : Record) (h : popCS b = some (d, b1)) :
    b.q = d :: b1.q ∧ b1.cap = b.cap := by
  unfold popCS at h
  by_cases hp : popPred b
  · simp only [hp, if_true] at h
    cases hq : b.q with
    | nil => simp [hq] at h
    | cons x rest =>
      simp [hq] at h
      obtain ⟨h1, h2⟩ := h
      subst h1; subst h2
      simp
  · simp [hp] at h

theorem popCS_cons (c : Int) (d : Record) (rest : List Record) :
    popCS ⟨c, d :: rest⟩ = some (d, ⟨c, rest⟩) := by
  simp [popCS, popPred]

theorem popCS_nil (c : Int) : popCS ⟨c, []⟩ = none := by
  simp [popCS, popPred]

/-- Invariant step used for the capacity bound. -/
theorem stepCS_preserves (cap : Int) (hpos : 0 < cap) (hint : isInt cap)
    (b b1 : BoundedBuffer) (s : Step) (hc : b.cap = cap)
    (hlen : (b.q.length : Int) ≤ cap) (h : stepCS b s = some b1) :
    b1.cap = cap ∧ (b1.q.length : Int) ≤ cap := by
  cases s with
  | push d =>
    obtain ⟨hp, hb⟩ := pushCS_eq_some b b1 d h
    unfold pushPred at hp
    rw [hc, toSizeT_of_nonneg cap (le_of_lt hpos) hint.2] at hp
    subst hb
    simp
    exact ⟨hc, by omega⟩
  | pop =>
    simp only [stepCS, Option.map_eq_some'] at h
    obtain ⟨⟨d, b2⟩, h1, h2⟩ := h
    simp at h2
    subst h2
    obtain ⟨hq, hcap⟩ := popCS_eq_some b b2 d h1
    rw [hq] at hlen
    simp at hlen
    exact ⟨by rw [hcap, hc], by omega⟩

theorem runCS_preserves (cap : Int) (hpos : 0 < cap) (hint : isInt cap)
    (steps : List Step) : ∀ (b b1 : BoundedBuffer), b.cap = cap →
    (b.q.length : Int) ≤ cap → runCS b steps = some b1 →
    b1.cap = cap ∧ (b1.q.length : Int) ≤ cap := by
  induction steps with
  | nil =>
    intro b b1 hc hlen h
    simp [runCS] at h
    subst h
    exact ⟨hc, hlen⟩
  | cons s ss ih =>
    intro b b1 hc hlen h
    simp only [runCS, Option.bind_eq_some] at h
    obtain ⟨b2, h1, h2⟩ := h
    obtain ⟨hc2, hlen2⟩ := stepCS_preserves cap hpos hint b b2 s hc hlen h1
    exact ih b2 b1 hc2 hlen2 h2

/-! ## Whole calls -/

theorem push_of_pred (b : BoundedBuffer) (d : List Byte) (h : pushPred b) :
    push b d = PushOutcome.returned { b with q := b.q ++ [d] } pushTrace := by
  simp [push, pushCS, h, pushTrace]

theorem push_of_not_pred (b : BoundedBuffer) (d : List Byte) (h : ¬ pushPred b) :
    push b d = PushOutcome.blocked b [Event.lock, Event.wait CondVar.slot_available] := by
  simp [push, pushCS, h]

theorem pop_nil (c : Int) (buf : List Byte) (bufcap : Int) :
    pop ⟨c, []⟩ buf bufcap =
      PopOutcome.blocked ⟨c, []⟩ [Event.lock, Event.wait CondVar.data_available] := by
  simp [pop, popCS_nil]

theorem pop_cons_ok (c : Int) (d : Record) (rest : List Record) (buf : List Byte)
    (bufcap : Int) (h : d.length ≤ toSizeT bufcap) :
    pop ⟨c, d :: rest⟩ buf bufcap =
      PopOutcome.returned (toInt d.length) (memcpy buf d d.length) ⟨c, rest⟩
        (popTrace d.length) := by
  simp [pop, popCS_cons, h, popTrace]

theorem pop_cons_abort (c : Int) (d : Record) (rest : List Record) (buf : List Byte)
    (bufcap : Int) (h : ¬ d.length ≤ toSizeT bufcap) :
    pop ⟨c, d :: rest⟩ buf bufcap = PopOutcome.aborted ⟨c, rest⟩ popAbortTrace := by
  simp [pop, popCS_cons, h, popAbortTrace]

theorem call_push_eq_some (b b1 : BoundedBuffer) (d : List Byte) (out : List Record)
    (h : call b (Call.push d) = some (b1, out)) :
    b1.cap = b.cap ∧ b1.q = b.q ++ [d] ∧ out = [] := by
  by_cases hp : pushPred b
  · simp [call, push_of_pred b d hp] at h
    obtain ⟨h1, h2⟩ := h
    subst h1; subst h2
    simp
  · simp [call, push_of_not_pred b d hp] at h

theorem call_pop_eq_some (b b1 : BoundedBuffer) (buf : List Byte) (bufcap : Int)
    (out : List Record) (h : call b (Call.pop buf bufcap) = some (b1, out)) :
    ∃ d, b1.cap = b.cap ∧ b.q = d :: b1.q ∧
      out = [(memcpy buf d d.length).take (toInt d.length).toNat] := by
  obtain ⟨c, q⟩ := b
  cases q with
  | nil => simp [call, pop_nil] at h
  | cons d rest =>
    by_cases hle : d.length ≤ toSizeT bufcap
    · simp [call, pop_cons_ok c d rest buf bufcap hle] at h
      obtain ⟨h1, h2⟩ := h
      subst h1; subst h2
      exact ⟨d, rfl, rfl, rfl⟩
    · simp [call, pop_cons_abort c d rest buf bufcap hle] at h

theorem runCalls_fifo (cs : List Call) : ∀ (b b1 : BoundedBuffer) (popped : List Record),
    (∀ c ∈ cs, Call.wellTyped c) → recordsFit b.q →
    runCalls b cs = some (b1, popped) → popped ++ b1.q = b.q ++ pushedOf cs := by
  induction cs with
  | nil =>
    intro b b1 popped _ _ h
    simp [runCalls] at h
    obtain ⟨h1, h2⟩ := h
    subst h1; subst h2
    simp [pushedOf]
  | cons c cs ih =>
    intro b b1 popped hwt hfit h
    have hwt1 : ∀ c1 ∈ cs, Call.wellTyped c1 := fun c1 hc1 =>
      hwt c1 (List.mem_cons_of_mem c hc1)
    have hwt0 : Call.wellTyped c := hwt c (List.mem_cons_self c cs)
    unfold runCalls at h
    cases hcall : call b c with
    | none => simp [hcall] at h
    | some r =>
      obtain ⟨b2, out⟩ := r
      simp only [hcall] at h
      cases hrun : runCalls b2 cs with
      | none => simp [hrun] at h
      | some r2 =>
        obtain ⟨b3, outs⟩ := r2
        simp only [hrun, Option.some.injEq, Prod.mk.injEq] at h
        obtain ⟨h1, h2⟩ := h
        subst h1; subst h2
        cases c with
        | push d =>
          obtain ⟨_, hq, hout⟩ := call_push_eq_some b b2 d out hcall
          have hfit2 : recordsFit b2.q := by
            intro r hr
            rw [hq] at hr
            rcases List.mem_append.mp hr with hr1 | hr1
            · exact hfit r hr1
            · simp at hr1
              subst hr1
              exact hwt0
          have := ih b2 b3 outs hwt1 hfit2 hrun
          rw [hout, hq] at *
          simp [pushedOf, this]
        | pop buf bufcap =>
          obtain ⟨d, _, hq, hout⟩ := call_pop_eq_some b b2 buf bufcap out hcall
          have hd : (d.length : Int) ≤ INT_MAX := hfit d (by rw [hq]; simp)
          have hfit2 : recordsFit b2.q := by
            intro r hr
            exact hfit r (by rw [hq]; exact List.mem_cons_of_mem d hr)
          have := ih b2 b3 outs hwt1 hfit2 hrun
          rw [toInt_of_le d.length hd] at hout
          simp only [Int.toNat_ofNat, memcpy_take] at hout
          rw [hout, hq]
          simp [pushedOf, this]

/-! ## Claims -/

/-- C1: for a queue constructed with a positive capacity, every state reached from
the empty queue by a finite sequence of admitted push and pop steps keeps the
stored capacity and has a queue length between 0 and the capacity. -/
theorem C1_capacity_invariant (cap : Int) (hpos : 0 < cap) (hint : isInt cap)
    (steps : List Step) (b : BoundedBuffer)
    (h : runCS (BoundedBuffer.new cap) steps = some b) :
    b.cap = cap ∧ 0 ≤ (b.q.length : Int) ∧ (b.q.length : Int) ≤ cap := by
  have h0 : ((BoundedBuffer.new cap).q.length : Int) ≤ cap := by
    simp [BoundedBuffer.new]; omega
  obtain ⟨hc, hl⟩ := runCS_preserves cap hpos hint steps (BoundedBuffer.new cap) b rfl h0 h
  exact ⟨hc, by omega, hl⟩

/-- Instance: C1 at capacity 2 along push, push, pop, push. -/
theorem C1_capacity_invariant_witness :
    runCS (BoundedBuffer.new 2) [Step.push [1], Step.push [2, 3], Step.pop, Step.push []]
      = some ⟨2, [[2, 3], []]⟩ ∧
    ((⟨2, [[2, 3], []]⟩ : BoundedBuffer).cap = 2 ∧
      0 ≤ (((⟨2, [[2, 3], []]⟩ : BoundedBuffer).q.length : Nat) : Int) ∧
      (((⟨2, [[2, 3], []]⟩ : BoundedBuffer).q.length : Nat) : Int) ≤ 2) :=
  ⟨by decide, C1_capacity_invariant 2 (by decide) (by decide)
    [Step.push [1], Step.push [2, 3], Step.pop, Step.push []] ⟨2, [[2, 3], []]⟩ (by decide)⟩

/-- C2: for every finite sequence of completed push and pop calls starting from
the empty queue (arguments of type `int` being in range), the records returned by
the pops, in pop order, followed by the records still queued, head to tail, are
exactly the pushed records in push order. -/
theorem C2_fifo_no_loss (cap : Int) (cs : List Call) (b : BoundedBuffer)
    (popped : List Record) (hwt : ∀ c ∈ cs, Call.wellTyped c)
    (h : runCalls (BoundedBuffer.new cap) cs = some (b, popped)) :
    popped ++ b.q = pushedOf cs := by
  have h0 : recordsFit (BoundedBuffer.new cap).q := by
    intro r hr
    simp [BoundedBuffer.new] at hr
  have := runCalls_fifo cs (BoundedBuffer.new cap) b popped hwt h0 h
  simpa [BoundedBuffer.new] using this

/-- Instance: C2 at capacity 2 along push, push, pop, push, pop. -/
theorem C2_fifo_no_loss_witness :
    (∀ c ∈ [Call.push [1], Call.push [2, 0], Call.pop [9, 9, 9] 3, Call.push [],
        Call.pop [9, 9, 9] 2], Call.wellTyped c) ∧
    runCalls (BoundedBuffer.new 2)
      [Call.push [1], Call.push [2, 0], Call.pop [9, 9, 9] 3, Call.push [],
        Call.pop [9, 9, 9] 2] = some (⟨2, [[]]⟩, [[1], [2, 0]]) ∧
    [[1], [2, 0]] ++ (⟨2, [[]]⟩ : BoundedBuffer).q =
      pushedOf [Call.push [1], Call.push [2, 0], Call.pop [9, 9, 9] 3, Call.push [],
        Call.pop [9, 9, 9] 2] :=
  ⟨by simp [Call.wellTyped, isInt, INT_MAX, INT_MIN], by decide,
   C2_fifo_no_loss 2 _ ⟨2, [[]]⟩ [[1], [2, 0]]
     (by simp [Call.wellTyped, isInt, INT_MAX, INT_MIN]) (by decide)⟩

theorem pushPred_iff_of_pos (b : BoundedBuffer) (hpos : 0 < b.cap) (hint : isInt b.cap) :
    pushPred b ↔ (b.q.length : Int) < b.cap := by
  unfold pushPred
  rw [toSizeT_of_nonneg b.cap (le_of_lt hpos) hint.2]
  omega

theorem toSizeT_ge_of_le (n : Nat) (bufcap : Int) (hint : isInt bufcap)
    (hle : (n : Int) ≤ bufcap) : n ≤ toSizeT bufcap := by
  have h0 : 0 ≤ bufcap := le_trans (Int.ofNat_nonneg n) hle
  rw [toSizeT_of_nonneg bufcap h0 hint.2]
  omega

/-- C3: pushing a byte sequence `d` onto the empty queue of a positive capacity and
then popping with `bufferCapacity >= length(d)` returns `length(d)`, leaves the
first `length(d)` bytes of the destination equal to `d`, and leaves the queue
empty. -/
theorem C3_round_trip (cap : Int) (hpos : 0 < cap) (hint : isInt cap) (d buf : List Byte)
    (bufcap : Int) (hb : isInt bufcap) (hle : (d.length : Int) ≤ bufcap) :
    push (BoundedBuffer.new cap) d = PushOutcome.returned ⟨cap, [d]⟩ pushTrace ∧
    pop ⟨cap, [d]⟩ buf bufcap =
      PopOutcome.returned (d.length : Int) (memcpy buf d d.length) ⟨cap, []⟩
        (popTrace d.length) ∧
    (memcpy buf d d.length).take d.length = d := by
  refine ⟨?_, ?_, memcpy_take buf d⟩
  · have hp : pushPred (BoundedBuffer.new cap) := by
      rw [pushPred_iff_of_pos _ hpos hint]
      simpa [BoundedBuffer.new] using hpos
    rw [push_of_pred _ d hp]
    simp [BoundedBuffer.new]
  · rw [pop_cons_ok cap d [] buf bufcap (toSizeT_ge_of_le d.length bufcap hb hle)]
    have hd : (d.length : Int) ≤ INT_MAX := le_trans hle hb.2
    rw [toInt_of_le d.length hd]

/-- Instance: C3 for the bytes 7, 0, 255 and a destination of 4 bytes. -/
theorem C3_round_trip_witness :
    push (BoundedBuffer.new 1) [7, 0, 255] = PushOutcome.returned ⟨1, [[7, 0, 255]]⟩ pushTrace ∧
    pop ⟨1, [[7, 0, 255]]⟩ [9, 9, 9, 9] 4 =
      PopOutcome.returned (([7, 0, 255] : List Byte).length : Int)
        (memcpy [9, 9, 9, 9] [7, 0, 255] ([7, 0, 255] : List Byte).length) ⟨1, []⟩
        (popTrace ([7, 0, 255] : List Byte).length) ∧
    (memcpy [9, 9, 9, 9] [7, 0, 255] ([7, 0, 255] : List Byte).length).take
      ([7, 0, 255] : List Byte).length = [7, 0, 255] :=
  C3_round_trip 1 (by decide) (by decide) [7, 0, 255] [9, 9, 9, 9] 4 (by decide) (by decide)

/-- For a non-negative `bufcap`, `pop` on a non-empty queue stops in the failed
assertion exactly when the head record is longer than `bufcap`. -/
theorem pop_aborted_iff_of_nonneg (c : Int) (d : Record) (rest : List Record)
    (buf : List Byte) (bufcap : Int) (hint : isInt bufcap) (h0 : 0 ≤ bufcap) :
    pop ⟨c, d :: rest⟩ buf bufcap = PopOutcome.aborted ⟨c, rest⟩ popAbortTrace ↔
      bufcap < (d.length : Int) := by
  by_cases hle : d.length ≤ toSizeT bufcap
  · rw [pop_cons_ok c d rest buf bufcap hle]
    rw [toSizeT_of_nonneg bufcap h0 hint.2] at hle
    constructor
    · intro h; cases h
    · intro h; omega
  · rw [pop_cons_abort c d rest buf bufcap hle]
    rw [toSizeT_of_nonneg bufcap h0 hint.2] at hle
    constructor
    · intro _; omega
    · intro _; rfl

/-- For a negative `bufcap` the converted bound is at least `2^64 - 2^31`, so the
assertion passes for every record whose length fits an `int`. -/
theorem pop_returns_of_neg (c : Int) (d : Record) (rest : List Record)
    (buf : List Byte) (bufcap : Int) (hint : isInt bufcap) (hneg : bufcap < 0)
    (hd : (d.length : Int) ≤ INT_MAX) :
    pop ⟨c, d :: rest⟩ buf bufcap =
      PopOutcome.returned (d.length : Int) (memcpy buf d d.length) ⟨c, rest⟩
        (popTrace d.length) := by
  have hconv := toSizeT_of_neg bufcap hint.1 hneg
  have hle : d.length ≤ toSizeT bufcap := by
    unfold INT_MAX at hd
    unfold SIZE_MOD at hconv
    have := hint.1
    unfold INT_MIN at this
    omega
  rw [pop_cons_ok c d rest buf bufcap hle, toInt_of_le d.length hd]

/-- A `pop` that returns delivers the whole head record. -/
theorem pop_returned_whole (c : Int) (d : Record) (rest : List Record) (buf buf1 : List Byte)
    (bufcap ret : Int) (b1 : BoundedBuffer) (tr : List Event)
    (h : pop ⟨c, d :: rest⟩ buf bufcap = PopOutcome.returned ret buf1 b1 tr) :
    buf1.take d.length = d ∧ ret = toInt d.length ∧ b1 = ⟨c, rest⟩ := by
  by_cases hle : d.length ≤ toSizeT bufcap
  · rw [pop_cons_ok c d rest buf bufcap hle] at h
    cases h
    exact ⟨memcpy_take buf d, rfl, rfl⟩
  · rw [pop_cons_abort c d rest buf bufcap hle] at h
    cases h

/-- C4 (evaluation at the failing input): with `bufcap = -1` the head record of
length 3 exceeds `bufcap`, yet the assertion passes and `pop` returns 3 after
copying 3 bytes. -/
theorem C4_negative_bufcap_passes_assert :
    isInt (-1) ∧ (-1 : Int) < (([65, 65, 65] : List Byte).length : Int) ∧
    pop ⟨1, [[65, 65, 65]]⟩ [0, 0, 0, 0] (-1) =
      PopOutcome.returned 3 [65, 65, 65, 0] ⟨1, []⟩ (popTrace 3) := by
  decide

theorem runCS_no_pop_blocked (steps : List Step) : ∀ (b b1 : BoundedBuffer),
    ¬ pushPred b → Step.pop ∉ steps → runCS b steps = some b1 → b1 = b := by
  induction steps with
  | nil =>
    intro b b1 _ _ h
    simp [runCS] at h
    exact h.symm
  | cons s ss _ =>
    intro b b1 hnp hmem h
    cases s with
    | push d => simp [runCS, stepCS, pushCS, hnp] at h
    | pop => simp at hmem

theorem runCS_no_push_blocked (steps : List Step) : ∀ (b b1 : BoundedBuffer),
    ¬ popPred b → (∀ d, Step.push d ∉ steps) → runCS b steps = some b1 → b1 = b := by
  induction steps with
  | nil =>
    intro b b1 _ _ h
    simp [runCS] at h
    exact h.symm
  | cons s ss _ =>
    intro b b1 hnp hmem h
    cases s with
    | push d => exact absurd (List.mem_cons_self _ _) (hmem d)
    | pop => simp [runCS, stepCS, popCS, hnp] at h

/-- C5: for a queue of positive capacity a push step is admitted iff
`len < capacity` and a pop step iff `len > 0`.  With capacity 1 and one record
queued, a push is blocked, stays blocked along every run without a pop step, and is
admitted after a pop step; on the empty queue a pop is blocked, stays blocked along
every run without a push step, and is admitted after a push step. -/
theorem C5_blocking (b : BoundedBuffer) (hpos : 0 < b.cap) (hint : isInt b.cap) :
    (pushPred b ↔ (b.q.length : Int) < b.cap) ∧
    (popPred b ↔ 0 < b.q.length) ∧
    (∀ d, (∃ b1 tr, push b d = PushOutcome.returned b1 tr) ↔ (b.q.length : Int) < b.cap) ∧
    (∀ buf bufcap, (∃ tr, pop b buf bufcap = PopOutcome.blocked b tr) ↔ b.q.length = 0) ∧
    (b.cap = 1 → b.q.length = 1 →
      (∀ d, pushCS b d = none) ∧
      (∀ steps b1, Step.pop ∉ steps → runCS b steps = some b1 → ¬ pushPred b1) ∧
      (∀ r b1, popCS b = some (r, b1) → pushPred b1)) ∧
    (b.cap = 1 → b.q.length = 0 →
      popCS b = none ∧
      (∀ steps b1, (∀ d, Step.push d ∉ steps) → runCS b steps = some b1 → ¬ popPred b1) ∧
      (∀ d b1, pushCS b d = some b1 → popPred b1)) := by
  have hpush := pushPred_iff_of_pos b hpos hint
  refine ⟨hpush, Iff.rfl, ?_, ?_, ?_, ?_⟩
  · intro d
    by_cases hp : pushPred b
    · rw [push_of_pred b d hp]
      exact ⟨fun _ => hpush.mp hp, fun _ => ⟨_, _, rfl⟩⟩
    · rw [push_of_not_pred b d hp]
      constructor
      · rintro ⟨b1, tr, h⟩; cases h
      · intro h; exact absurd (hpush.mpr h) hp
  · intro buf bufcap
    obtain ⟨c, q⟩ := b
    cases q with
    | nil => simp [pop_nil]
    | cons d rest =>
      by_cases hle : d.length ≤ toSizeT bufcap
      · simp [pop_cons_ok c d rest buf bufcap hle]
      · simp [pop_cons_abort c d rest buf bufcap hle]
  · intro hc hl
    have hnp : ¬ pushPred b := by
      rw [hpush, hc, hl]; decide
    refine ⟨fun d => by simp [pushCS, hnp], ?_, ?_⟩
    · intro steps b1 hmem hrun
      rw [runCS_no_pop_blocked steps b b1 hnp hmem hrun]
      exact hnp
    · intro r b1 hpop
      obtain ⟨hq, hcap⟩ := popCS_eq_some b b1 r hpop
      have hint1 : isInt b1.cap := by rw [hcap]; exact hint
      rw [pushPred_iff_of_pos b1 (by rw [hcap]; exact hpos) hint1, hcap, hc]
      rw [hq] at hl
      simp at hl
      simp [hl]
  · intro _ hl
    have hnp : ¬ popPred b := by
      unfold popPred; omega
    refine ⟨by simp [popCS, hnp], ?_, ?_⟩
    · intro steps b1 hmem hrun
      rw [runCS_no_push_blocked steps b b1 hnp hmem hrun]
      exact hnp
    · intro d b1 hp
      obtain ⟨_, hb⟩ := pushCS_eq_some b b1 d hp
      subst hb
      simp [popPred]

/-- Instance: C5 for the capacity-1 queue holding one record. -/
theorem C5_blocking_witness :
    (pushPred ⟨1, [[5]]⟩ ↔ (((⟨1, [[5]]⟩ : BoundedBuffer).q.length : Nat) : Int) < 1) ∧
    ¬ pushPred ⟨1, [[5]]⟩ ∧ pushPred ⟨1, []⟩ ∧ popCS ⟨1, [[5]]⟩ = some ([5], ⟨1, []⟩) :=
  ⟨(C5_blocking ⟨1, [[5]]⟩ (by decide) (by decide)).1, by decide,
   (C5_blocking ⟨1, [[5]]⟩ (by decide) (by decide)).2.2.2.2.1 rfl rfl |>.2.2 [5] ⟨1, []⟩ (by decide),
   by decide⟩

/-- C6: with capacity 2, from the empty queue, push "AAA" and push "BBBBB" both
return; in the resulting state a third push is blocked; a pop with
`bufferCapacity >= 3` returns 3 with the bytes "AAA" and leaves ["BBBBB"]; after
that pop a push is admitted. -/
theorem C6_scenario (buf : List Byte) (bufcap : Int) (hint : isInt bufcap)
    (h3 : 3 ≤ bufcap) :
    push (BoundedBuffer.new 2) AAA = PushOutcome.returned ⟨2, [AAA]⟩ pushTrace ∧
    push ⟨2, [AAA]⟩ BBBBB = PushOutcome.returned ⟨2, [AAA, BBBBB]⟩ pushTrace ∧
    ¬ pushPred ⟨2, [AAA, BBBBB]⟩ ∧
    (∀ d, push ⟨2, [AAA, BBBBB]⟩ d =
      PushOutcome.blocked ⟨2, [AAA, BBBBB]⟩ [Event.lock, Event.wait CondVar.slot_available]) ∧
    pop ⟨2, [AAA, BBBBB]⟩ buf bufcap =
      PopOutcome.returned 3 (memcpy buf AAA 3) ⟨2, [BBBBB]⟩ (popTrace 3) ∧
    (memcpy buf AAA 3).take 3 = AAA ∧
    pushPred ⟨2, [BBBBB]⟩ ∧
    (∀ d, push ⟨2, [BBBBB]⟩ d = PushOutcome.returned ⟨2, [BBBBB, d]⟩ pushTrace) := by
  have hfull : ¬ pushPred ⟨2, [AAA, BBBBB]⟩ := by decide
  have hroom : pushPred ⟨2, [BBBBB]⟩ := by decide
  refine ⟨by decide, by decide, hfull, ?_, ?_, ?_, hroom, ?_⟩
  · intro d
    exact push_of_not_pred _ d hfull
  · have hle : AAA.length ≤ toSizeT bufcap :=
      toSizeT_ge_of_le AAA.length bufcap hint (by simpa [AAA] using h3)
    rw [pop_cons_ok 2 AAA [BBBBB] buf bufcap hle]
    rfl
  · exact memcpy_take buf AAA
  · intro d
    rw [push_of_pred _ d hroom]
    rfl

/-- Instance: C6 with a destination of 8 bytes. -/
theorem C6_scenario_witness :
    pop ⟨2, [AAA, BBBBB]⟩ [0, 0, 0, 0, 0, 0, 0, 0] 8 =
      PopOutcome.returned 3 (memcpy [0, 0, 0, 0, 0, 0, 0, 0] AAA 3) ⟨2, [BBBBB]⟩ (popTrace 3) ∧
    memcpy [0, 0, 0, 0, 0, 0, 0, 0] AAA 3 = [65, 65, 65, 0, 0, 0, 0, 0] :=
  ⟨(C6_scenario [0, 0, 0, 0, 0, 0, 0, 0] 8 (by decide) (by decide)).2.2.2.2.1, by decide⟩

/-- C7 (counterexample): with capacity 1 the admitted push from the Empty state
yields a Full state that is not Partial, and the admitted pop from that Full state
yields an Empty state that is not Partial. -/
theorem C7_capacity_one_counterexample :
    stEmpty (BoundedBuffer.new 1) ∧
    pushCS (BoundedBuffer.new 1) [65] = some ⟨1, [[65]]⟩ ∧
    ¬ stPartial ⟨1, [[65]]⟩ ∧ stFull ⟨1, [[65]]⟩ ∧
    popCS ⟨1, [[65]]⟩ = some ([65], ⟨1, []⟩) ∧
    ¬ stPartial ⟨1, []⟩ ∧ stEmpty ⟨1, []⟩ := by
  decide

/-- C7 (amended): for a positive capacity, an admitted push step from an Empty
state yields a Partial state when the capacity is at least 2 and a Full state when
it is 1, and from a Partial state yields a Partial or Full state; an admitted pop
step from a Full state yields a Partial state when the capacity is at least 2 and
an Empty state when it is 1, and from a Partial state yields a Partial or Empty
state. -/
theorem C7_transitions (b b1 : BoundedBuffer) :
    (∀ d, pushCS b d = some b1 →
      (stEmpty b → (2 ≤ b.cap → stPartial b1) ∧ (b.cap = 1 → stFull b1)) ∧
      (stPartial b → stPartial b1 ∨ stFull b1)) ∧
    (∀ r, popCS b = some (r, b1) →
      (stFull b → (2 ≤ b.cap → stPartial b1) ∧ (b.cap = 1 → stEmpty b1)) ∧
      (stPartial b → stPartial b1 ∨ stEmpty b1)) := by
  constructor
  · intro d h
    obtain ⟨_, hb⟩ := pushCS_eq_some b b1 d h
    subst hb
    unfold stEmpty stPartial stFull
    simp only [List.length_append, List.length_singleton]
    refine ⟨fun he => ⟨fun h2 => ?_, fun h1 => ?_⟩, fun hp => ?_⟩
    · rw [he]; constructor
      · omega
      · simp; omega
    · rw [he, h1]; simp
    · by_cases hf : ((b.q.length + 1 : Nat) : Int) = b.cap
      · exact Or.inr hf
      · left
        constructor
        · omega
        · push_cast at hf ⊢
          omega
  · intro r h
    obtain ⟨hq, hcap⟩ := popCS_eq_some b b1 r h
    unfold stEmpty stPartial stFull
    rw [hq, hcap]
    simp only [List.length_cons]
    refine ⟨fun hf => ⟨fun h2 => ?_, fun h1 => ?_⟩, fun hp => ?_⟩
    · push_cast at hf
      constructor <;> omega
    · push_cast at hf
      omega
    · by_cases he : b1.q.length = 0
      · exact Or.inr he
      · left
        push_cast at hp
        constructor <;> omega

/-- Instance: C7 for the first push at capacity 2. -/
theorem C7_transitions_witness :
    pushCS (BoundedBuffer.new 2) [65] = some ⟨2, [[65]]⟩ ∧ stEmpty (BoundedBuffer.new 2) ∧
    stPartial ⟨2, [[65]]⟩ :=
  ⟨by decide, by decide,
   ((C7_transitions (BoundedBuffer.new 2) ⟨2, [[65]]⟩).1 [65]
      (by decide)).1 (by decide) |>.1 (by decide)⟩

/-- C8 (counterexample): in a returning `pop` the length check and the copy come
before the notify-one on `slot_available`, which is the last effect. -/
theorem C8_signal_after_copy_counterexample :
    pop ⟨1, [[65]]⟩ [0] 1 =
      PopOutcome.returned 1 [65] ⟨1, []⟩
        [Event.lock, Event.wait CondVar.data_available, Event.q_pop, Event.unlock,
         Event.assert_check true, Event.memcpy 1,
         Event.notify_one CondVar.slot_available] ∧
    (popTrace 1).indexOf (Event.assert_check true) <
      (popTrace 1).indexOf (Event.notify_one CondVar.slot_available) ∧
    (popTrace 1).indexOf (Event.memcpy 1) <
      (popTrace 1).indexOf (Event.notify_one CondVar.slot_available) := by
  decide

/-- C8 (amended): a `pop` on a non-empty queue acquires the lock, removes the head
record, releases the lock and checks the record's length against `bufcap`; when the
check passes it copies the bytes into the caller's buffer and only then performs the
notify-one on `slot_available`; when the check fails it stops there, without
copying and without a signal. -/
theorem C8_pop_effect_order (c : Int) (d : Record) (rest : List Record) (buf : List Byte)
    (bufcap : Int) :
    pop ⟨c, d :: rest⟩ buf bufcap =
      if d.length ≤ toSizeT bufcap then
        PopOutcome.returned (toInt d.length) (memcpy buf d d.length) ⟨c, rest⟩
          [Event.lock, Event.wait CondVar.data_available, Event.q_pop, Event.unlock,
           Event.assert_check true, Event.memcpy d.length,
           Event.notify_one CondVar.slot_available]
      else
        PopOutcome.aborted ⟨c, rest⟩
          [Event.lock, Event.wait CondVar.data_available, Event.q_pop, Event.unlock,
           Event.assert_check false] := by
  by_cases hle : d.length ≤ toSizeT bufcap
  · rw [pop_cons_ok c d rest buf bufcap hle, if_pos hle]; rfl
  · rw [pop_cons_abort c d rest buf bufcap hle, if_neg hle]; rfl

/-- C9: a `push` call whose wait predicate holds returns, and a `push` that returns
performs, in order, lock, wait, append, unlock and one notify-one on
`data_available`, which is its only signal; a `pop` call that returns performs
exactly one signal, a notify-one on `slot_available`, as its last effect, and a
`pop` on a non-empty queue whose length check passes does return.  No returning
call has zero signals, a broadcast or a signal on the other condition. -/
theorem C9_wake_discipline (b : BoundedBuffer) (data buf : List Byte) (bufcap : Int) :
    (pushPred b → ∃ b1 tr, push b data = PushOutcome.returned b1 tr) ∧
    (∀ b1 tr, push b data = PushOutcome.returned b1 tr →
      tr = [Event.lock, Event.wait CondVar.slot_available, Event.q_push, Event.unlock,
            Event.notify_one CondVar.data_available] ∧
      signals tr = [Event.notify_one CondVar.data_available]) ∧
    (∀ ret buf1 b1 tr, pop b buf bufcap = PopOutcome.returned ret buf1 b1 tr →
      (∃ pre, tr = pre ++ [Event.notify_one CondVar.slot_available] ∧ signals pre = []) ∧
      signals tr = [Event.notify_one CondVar.slot_available]) ∧
    (∀ d rest, b.q = d :: rest → d.length ≤ toSizeT bufcap →
      ∃ ret buf1 b1 tr, pop b buf bufcap = PopOutcome.returned ret buf1 b1 tr) := by
  refine ⟨fun hp => ⟨_, _, push_of_pred b data hp⟩, ?_, ?_, ?_⟩
  · intro b1 tr h
    by_cases hp : pushPred b
    · rw [push_of_pred b data hp] at h
      cases h
      exact ⟨rfl, by decide⟩
    · rw [push_of_not_pred b data hp] at h
      cases h
  · intro ret buf1 b1 tr h
    obtain ⟨c, q⟩ := b
    cases q with
    | nil => rw [pop_nil] at h; cases h
    | cons d rest =>
      by_cases hle : d.length ≤ toSizeT bufcap
      · rw [pop_cons_ok c d rest buf bufcap hle] at h
        cases h
        refine ⟨⟨[Event.lock, Event.wait CondVar.data_available, Event.q_pop, Event.unlock,
          Event.assert_check true, Event.memcpy d.length], rfl, ?_⟩, ?_⟩
        · simp [signals, Event.isSignal]
        · simp [signals, popTrace, Event.isSignal]
      · rw [pop_cons_abort c d rest buf bufcap hle] at h
        cases h
  · intro d rest hq hle
    obtain ⟨c, q⟩ := b
    simp only at hq
    subst hq
    exact ⟨_, _, _, _, pop_cons_ok c d rest buf bufcap hle⟩

/-- Instance: C9 for a push and a pop at capacity 2. -/
theorem C9_wake_discipline_witness :
    pushPred ⟨2, [[1]]⟩ ∧
    push ⟨2, [[1]]⟩ [2] = PushOutcome.returned ⟨2, [[1], [2]]⟩ pushTrace ∧
    signals pushTrace = [Event.notify_one CondVar.data_available] ∧
    pop ⟨2, [[1]]⟩ [0] 1 = PopOutcome.returned 1 [1] ⟨2, []⟩ (popTrace 1) ∧
    signals (popTrace 1) = [Event.notify_one CondVar.slot_available] :=
  ⟨by decide, by decide,
   ((C9_wake_discipline ⟨2, [[1]]⟩ [2] [0] 1).2.1 ⟨2, [[1], [2]]⟩ pushTrace (by decide)).2,
   by decide,
   ((C9_wake_discipline ⟨2, [[1]]⟩ [2] [0] 1).2.2.1 1 [1] ⟨2, []⟩ (popTrace 1) (by decide)).2⟩

/-- C10: the constructor stores any `int` capacity as given; for a negative
capacity `c` the wait predicate of `push` holds exactly when the queue length is
below `2^64 + c`, so the first push on the new queue returns and leaves a queue
whose length 1 exceeds the stored capacity. -/
theorem C10_negative_capacity (c : Int) (hint : isInt c) (hneg : c < 0) :
    (BoundedBuffer.new c).cap = c ∧ (BoundedBuffer.new c).q = [] ∧
    (∀ b : BoundedBuffer, b.cap = c →
      (pushPred b ↔ (b.q.length : Int) < (SIZE_MOD : Int) + c)) ∧
    (∀ d, push (BoundedBuffer.new c) d = PushOutcome.returned ⟨c, [d]⟩ pushTrace ∧
      ¬ (((⟨c, [d]⟩ : BoundedBuffer).q.length : Nat) : Int) ≤ (⟨c, [d]⟩ : BoundedBuffer).cap) := by
  have hconv := toSizeT_of_neg c hint.1 hneg
  have hiff : ∀ b : BoundedBuffer, b.cap = c →
      (pushPred b ↔ (b.q.length : Int) < (SIZE_MOD : Int) + c) := by
    intro b hb
    unfold pushPred
    rw [hb, ← hconv]
    omega
  refine ⟨rfl, rfl, hiff, ?_⟩
  intro d
  have hp : pushPred (BoundedBuffer.new c) := by
    rw [hiff _ rfl]
    have := hint.1
    unfold INT_MIN at this
    simp [BoundedBuffer.new, SIZE_MOD]
    omega
  rw [push_of_pred _ d hp]
  refine ⟨by simp [BoundedBuffer.new], ?_⟩
  simp
  omega

/-- Instance: C10 at capacity -1. -/
theorem C10_negative_capacity_witness :
    pushPred ⟨-1, [[1], [2], [3]]⟩ ∧
    push (BoundedBuffer.new (-1)) [7] = PushOutcome.returned ⟨-1, [[7]]⟩ pushTrace :=
  ⟨((C10_negative_capacity (-1) (by decide) (by decide)).2.2.1 ⟨-1, [[1], [2], [3]]⟩ rfl).mpr
     (by decide),
   ((C10_negative_capacity (-1) (by decide) (by decide)).2.2.2 [7]).1⟩

end BB
